import Mathlib

/-!
Verification of the core extraction/consolidation logic of
extrair_itens_docx.py.

The code is shallowly embedded: strings are lists of characters
(abbreviated Str), a table is a list of rows, a row a list of raw cell
texts, and a document a list of tables.  Python floats are modelled as
exact fractions (structure PyFloat below); Python's binary64 addition
rounds after every step and is not associative, so every theorem below
either evaluates quantities at concrete values whose arithmetic is
exact in binary64, or, as in the consolidation permutation theorem,
concerns only the code order, which never depends on the accumulated
values.  Character classes (digits,
whitespace, upper/lower case) are modelled over ASCII, which is the
fragment the program's data and regular expressions exercise.
-/

abbrev Str := List Char

abbrev Table := List (List Str)

/-- ASCII decimal digit, the class matched by the backslash-d of the
source regular expressions. -/
def isDig (c : Char) : Bool := decide (48 ≤ c.toNat) && decide (c.toNat ≤ 57)

/-- Whitespace as stripped by Python str.strip and matched by the
backslash-s of the source regular expressions (ASCII fragment:
tab, newline, vertical tab, form feed, carriage return, space). -/
def isSpaceChar (c : Char) : Bool :=
  (decide (9 ≤ c.toNat) && decide (c.toNat ≤ 13)) || decide (c.toNat = 32)

/-- Removal of leading whitespace, the left half of Python str.strip. -/
def lstrip (s : Str) : Str := s.dropWhile isSpaceChar

/-- Removal of trailing whitespace, the right half of Python str.strip. -/
def rstrip : Str → Str
  | [] => []
  | c :: t =>
    let r := rstrip t
    if r.isEmpty then (if isSpaceChar c then [] else [c]) else c :: r

/-- Python str.strip with no arguments. -/
def pyStrip (s : Str) : Str := rstrip (lstrip s)

/-- Source function norm: replace the non-breaking space U+00A0 by a
regular space, then strip surrounding whitespace. -/
def norm (s : Str) : Str :=
  pyStrip (s.map (fun c => if c.toNat = 160 then ' ' else c))

/-- ASCII uppercasing of one character, modelling Python str.upper on
the character data the program handles. -/
def upChar (c : Char) : Char :=
  if 97 ≤ c.toNat ∧ c.toNat ≤ 122 then Char.ofNat (c.toNat - 32) else c

/-- ASCII lowercasing of one character, modelling Python str.lower on
the character data the program handles. -/
def lowChar (c : Char) : Char :=
  if 65 ≤ c.toNat ∧ c.toNat ≤ 90 then Char.ofNat (c.toNat + 32) else c

/-- The not-available marker the program compares against after
uppercasing. -/
def ndMarker : Str := "#N/D".toList

/-- Matching of the anchored regular expression CODE_RE, namely
caret backslash-s-star digits (dot digits)? backslash-s-star dollar,
applied with re.match.  The pattern is deterministic: the digit runs
are maximal, and any backtracking branch of the regex engine fails,
so the direct parse below computes exactly its result. -/
def coreMatch (t : Str) : Bool :=
  let ds := t.takeWhile isDig
  let rest := t.dropWhile isDig
  !ds.isEmpty &&
    (match rest with
     | '.' :: r2 =>
       !(r2.takeWhile isDig).isEmpty && (r2.dropWhile isDig).all isSpaceChar
     | r => r.all isSpaceChar)

/-- Source constant CODE_RE used as a matcher on a whole string. -/
def CODE_RE_match (s : Str) : Bool := coreMatch (s.dropWhile isSpaceChar)

/-- Maximal run of groups dot-digit-digit-digit, the starred group of
the first alternative of the quantity regular expression.  Greedy
matching with no viable backtracking: after fewer repetitions the next
character is a dot, which can never match the comma that follows. -/
def consumeGroups : Str → Str × Str
  | '.' :: a :: b :: c :: rest =>
    if isDig a && isDig b && isDig c then
      let gr := consumeGroups rest
      ('.' :: a :: b :: c :: gr.1, gr.2)
    else ([], '.' :: a :: b :: c :: rest)
  | s => ([], s)

/-- First alternative of the quantity regular expression:
one to three digits, then dot-separated groups of three digits, then a
comma and one or more digits (thousands-grouped decimal).  When the
leading digit run is longer than three, every backtracking choice of
the engine leaves a digit where the comma or dot is required, so the
alternative fails, as encoded by the length test. -/
def matchAlt1 (s : Str) : Option Str :=
  let d1 := s.takeWhile isDig
  if d1.isEmpty || decide (4 ≤ d1.length) then none
  else
    let gr := consumeGroups (s.drop d1.length)
    match gr.2 with
    | ',' :: r2 =>
      let d2 := r2.takeWhile isDig
      if d2.isEmpty then none else some (d1 ++ gr.1 ++ ',' :: d2)
    | _ => none

/-- Second alternative of the quantity regular expression: digits,
comma, digits (simple decimal).  Backtracking over the first digit run
always leaves a digit where the comma is required, so the maximal run
is the only candidate. -/
def matchAlt2 (s : Str) : Option Str :=
  let d1 := s.takeWhile isDig
  if d1.isEmpty then none
  else
    match s.drop d1.length with
    | ',' :: r2 =>
      let d2 := r2.takeWhile isDig
      if d2.isEmpty then none else some (d1 ++ ',' :: d2)
    | _ => none

/-- Third alternative of the quantity regular expression: a plain
maximal digit run. -/
def matchAlt3 (s : Str) : Option Str :=
  let d1 := s.takeWhile isDig
  if d1.isEmpty then none else some d1

/-- Ordered alternation of the three alternatives, as the regex engine
tries them at one fixed starting position. -/
def tryAlts (s : Str) : Option Str :=
  match matchAlt1 s with
  | some m => some m
  | none =>
    match matchAlt2 s with
    | some m => some m
    | none => matchAlt3 s

/-- re.search of the quantity regular expression: scan the starting
positions left to right and return the first match. -/
def findNumber : Str → Option Str
  | [] => none
  | c :: rest =>
    match tryAlts (c :: rest) with
    | some m => some m
    | none => findNumber rest

/-- Python " ".join. -/
def joinSp : List Str → Str
  | [] => []
  | [x] => x
  | x :: y :: rest => x ++ ' ' :: joinSp (y :: rest)

/-- Source function pick_quantity_from_row: prefer the third cell,
fall back to the first number found in the joined row text, and return
the empty string when the search fails. -/
def pick_quantity_from_row (cells_text : List Str) : Str :=
  if 3 ≤ cells_text.length then
    let q := norm (cells_text.getD 2 [])
    if q ≠ [] ∧ q.map upChar ≠ ndMarker then q
    else (findNumber (joinSp cells_text)).getD []
  else (findNumber (joinSp cells_text)).getD []

/-- Source function is_itens_table: a table is a target table when it
has rows and some cell of its first row, normalized and lowercased,
equals the word itens. -/
def is_itens_table : Table → Bool
  | [] => false
  | row0 :: _ =>
    (row0.map norm).any (fun t => decide (t.map lowChar = "itens".toList))

/-- Outcome of the extraction loop body for one data row: either an
accepted (code, quantity) pair or a skip with its reason and logged
value, mirroring the continue branches of extract_code_qty. -/
inductive RowResult where
  | accepted : Str → Str → RowResult
  | skipped : String → Str → RowResult
deriving DecidableEq

/-- Body of the data-row loop of extract_code_qty, applied to the
already normalized cell texts of one row. -/
def classify_row (cells : List Str) : RowResult :=
  match cells with
  | [] => .skipped "skip_empty_row" []
  | c0 :: _ =>
    let code := norm c0
    if code = [] ∨ code.map upChar = ndMarker then
      .skipped "skip_code_empty_or_ND" []
    else if CODE_RE_match code = false then
      .skipped "skip_code_invalid" code
    else
      let qty := pick_quantity_from_row cells
      if qty = [] ∨ qty.map upChar = ndMarker then
        .skipped "skip_qty_empty_or_ND" code
      else .accepted (pyStrip code) (pyStrip qty)

/-- One skip-log entry: table index, row index, reason, logged value. -/
abbrev SkipRec := Nat × Nat × String × Str

/-- The data-row loop of extract_code_qty over the rows of one table,
numbering rows from r_i as the source enumerate does. -/
def process_rows (t_i : Nat) : Nat → List (List Str) → List (Str × Str) × List SkipRec
  | _, [] => ([], [])
  | r_i, rawRow :: rest =>
    let cells := rawRow.map norm
    let acc := process_rows t_i (r_i + 1) rest
    match classify_row cells with
    | .accepted c q => ((c, q) :: acc.1, acc.2)
    | .skipped reason v => (acc.1, (t_i, r_i, reason, v) :: acc.2)

/-- Processing of one target table: the header row is dropped and the
data rows are numbered starting at 2. -/
def process_table (t_i : Nat) (table : Table) : List (Str × Str) × List SkipRec :=
  process_rows t_i 2 (table.drop 1)

/-- The table loop of extract_code_qty, numbering tables from t_i and
also counting the tables classified as target tables. -/
def extract_tables : Nat → List Table → List (Str × Str) × List SkipRec × Nat
  | _, [] => ([], [], 0)
  | t_i, tb :: rest =>
    let acc := extract_tables (t_i + 1) rest
    if is_itens_table tb then
      let one := process_table t_i tb
      (one.1 ++ acc.1, one.2 ++ acc.2.1, acc.2.2 + 1)
    else acc

/-- The meta dictionary returned by extract_code_qty. -/
structure Meta where
  tables_total : Nat
  itens_tables : Nat
  rows_extracted : Nat
  rows_ignored : Nat
  ignored_details : List SkipRec
deriving DecidableEq

/-- Source function extract_code_qty on a document given as its list
of tables. -/
def extract_code_qty (tables : List Table) : List (Str × Str) × Meta :=
  let acc := extract_tables 1 tables
  (acc.1, ⟨tables.length, acc.2.2, acc.1.length, acc.2.1.length, acc.2.1⟩)

/-- Exact fraction num/den modelling a Python float value.  All
fractions built by the program have a positive denominator.  The
fraction is kept unnormalized so that every operation is plain integer
arithmetic. -/
structure PyFloat where
  num : ℤ
  den : ℤ
deriving DecidableEq

instance : Inhabited PyFloat := ⟨⟨0, 1⟩⟩

/-- The rational value of a modelled float. -/
def qval (p : PyFloat) : ℚ := (p.num : ℚ) / (p.den : ℚ)

/-- Addition of modelled float values as exact fractions.  Python adds
binary64 floats, which round after every addition and are therefore
not associative; this exact idealization coincides with the program
only where all intermediate sums are exactly representable, as they
are in every concrete evaluation below, and no theorem in this file
appeals to associativity or commutativity of accumulated sums. -/
def pfAdd (x y : PyFloat) : PyFloat := ⟨x.num * y.den + y.num * x.den, x.den * y.den⟩

/-- Numeric value of a digit run, most significant digit first. -/
def digitsToNat (ds : Str) : ℕ := ds.foldl (fun a c => 10 * a + (c.toNat - 48)) 0

/-- An optional leading sign, as accepted by Python float(). -/
def parseSign : Str → ℤ × Str
  | '-' :: r => (-1, r)
  | '+' :: r => (1, r)
  | s => (1, s)

/-- Model of Python float() on a string: surrounding whitespace is
stripped, then an optional sign, a decimal mantissa with an optional
dot, and an optional exponent part are read; anything else fails.
Modelled subset: the inf and nan spellings and digit-group underscores
of Python are not represented (the program never produces them). -/
def pyFloatParse (s : Str) : Option PyFloat :=
  let t := pyStrip s
  let sg := parseSign t
  let ip := sg.2.takeWhile isDig
  let r1 := sg.2.dropWhile isDig
  let fpr : Str × Str :=
    match r1 with
    | '.' :: r => (r.takeWhile isDig, r.dropWhile isDig)
    | _ => ([], r1)
  if ip.isEmpty && fpr.1.isEmpty then none
  else
    let mantNum : ℤ := sg.1 * (digitsToNat (ip ++ fpr.1) : ℤ)
    let mantDen : ℤ := (10 : ℤ) ^ fpr.1.length
    match fpr.2 with
    | [] => some ⟨mantNum, mantDen⟩
    | e :: r3 =>
      if e = 'e' ∨ e = 'E' then
        let esg := parseSign r3
        let eds := esg.2.takeWhile isDig
        if eds.isEmpty || !(esg.2.dropWhile isDig).isEmpty then none
        else if esg.1 = 1 then some ⟨mantNum * 10 ^ digitsToNat eds, mantDen⟩
        else some ⟨mantNum, mantDen * 10 ^ digitsToNat eds⟩
      else none

/-- The cleaning step of parse_pt_br_float: delete every dot (thousands
separator), then turn every comma into a dot (decimal separator). -/
def pyClean (s : Str) : Str :=
  (s.filter (fun c => decide (c ≠ '.'))).map (fun c => if c = ',' then '.' else c)

/-- Source function parse_pt_br_float: clean the string and parse it as
a float, falling back to zero when parsing raises. -/
def parse_pt_br_float (s : Str) : PyFloat :=
  match pyFloatParse (pyClean s) with
  | some v => v
  | none => ⟨0, 1⟩

/-- Rounding of an exact fraction to an integer, ties to even, the
rounding applied by Python float formatting with two decimals (here
used on the value already scaled by one hundred). -/
def roundHalfEven (p : PyFloat) : ℤ :=
  let f := p.num.fdiv p.den
  let r := p.num - f * p.den
  if 2 * r < p.den then f
  else if p.den < 2 * r then f + 1
  else if f % 2 = 0 then f else f + 1

/-- Insertion of a grouping separator before every third digit,
counting positions from the right (the input is reversed). -/
def group3Aux : Nat → Str → Str
  | _, [] => []
  | i, c :: rest =>
    (if i ≠ 0 ∧ i % 3 = 0 then [','] else []) ++ c :: group3Aux (i + 1) rest

/-- Thousands grouping of a digit string with commas, as produced by
the comma flag of Python format. -/
def groupThousands (ds : Str) : Str := (group3Aux 0 ds.reverse).reverse

/-- Two-digit decimal rendering of a number below one hundred. -/
def twoDigitsStr (n : ℕ) : Str := [Char.ofNat (48 + n / 10), Char.ofNat (48 + n % 10)]

/-- Python f-string formatting with thousands grouping and two decimal
places applied to an exact fraction: round half to even at two
decimals, then render sign, grouped integer part, dot, two digits. -/
def pyFormatThousands2f (p : PyFloat) : Str :=
  let n := roundHalfEven ⟨p.num * 100, p.den⟩
  let a := n.natAbs
  (if n < 0 then ['-'] else [])
    ++ groupThousands (Nat.toDigits 10 (a / 100)) ++ '.' :: twoDigitsStr (a % 100)

/-- The separator swap of consolidate_rows.  The source goes through
the placeholder TEMP in three replace calls; since the formatted
string never contains that placeholder, the net effect is the
character swap of commas and dots. -/
def swapSeps (s : Str) : Str :=
  s.map (fun c => if c = ',' then '.' else if c = '.' then ',' else c)

/-- The quantity rendering of consolidate_rows: format with two
decimals and thousands grouping, then swap the separators into the
Brazilian convention. -/
def fmt_total (p : PyFloat) : Str := swapSeps (pyFormatThousands2f p)

/-- Addition of a value onto the entry of a code in the sums mapping,
modelling defaultdict(float) updated in insertion order: an existing
entry is increased in place, a missing code is appended with the
default zero plus the value. -/
def addTo : List (Str × PyFloat) → Str → PyFloat → List (Str × PyFloat)
  | [], c, v => [(c, pfAdd ⟨0, 1⟩ v)]
  | (c1, v1) :: rest, c, v =>
    if c1 = c then (c1, pfAdd v1 v) :: rest else (c1, v1) :: addTo rest c v

/-- The summing loop of consolidate_rows over the extracted rows. -/
def buildSumsAux : List (Str × PyFloat) → List (Str × Str) → List (Str × PyFloat)
  | acc, [] => acc
  | acc, (c, q) :: rest => buildSumsAux (addTo acc c (parse_pt_br_float q)) rest

/-- The sums mapping of consolidate_rows, keys in insertion order. -/
def buildSums (rows : List (Str × Str)) : List (Str × PyFloat) := buildSumsAux [] rows

/-- Value of a code in the sums mapping (zero when absent; every
sorted code is present). -/
def lookupPF : List (Str × PyFloat) → Str → PyFloat
  | [], _ => ⟨0, 1⟩
  | (c, v) :: rest, k => if c = k then v else lookupPF rest k

/-- One element of a natural-sort key: an integer from a digit run or
a literal string from a run without digits. -/
inductive KeyElem where
  | int : ℕ → KeyElem
  | str : Str → KeyElem
deriving DecidableEq

/-- re.split on the pattern capturing digit runs: the string is cut
into an alternating sequence starting and ending with a (possibly
empty) run without digits, with the nonempty digit runs kept between
them.  Implemented as a single left-to-right scan. -/
def rsplitAux : List Str → Bool → Str → Str → List Str
  | done, inDigit, cur, [] =>
    if inDigit then done ++ [cur, []] else done ++ [cur]
  | done, inDigit, cur, c :: rest =>
    if isDig c = inDigit then rsplitAux done inDigit (cur ++ [c]) rest
    else rsplitAux (done ++ [cur]) (!inDigit) [c] rest

/-- re.split of a code on the digit-run capturing pattern. -/
def resplitDigits (s : Str) : List Str := rsplitAux [] false [] s

/-- Python str.isdigit on the chunks produced by the split: true for a
nonempty all-digit string. -/
def pyIsDigitStr (s : Str) : Bool := !s.isEmpty && s.all isDig

/-- Source function natural_key: split the code on digit runs and turn
each all-digit chunk into an integer, keeping the rest as strings. -/
def natural_key (k : Str) : List KeyElem :=
  (resplitDigits k).map (fun c => if pyIsDigitStr c then .int (digitsToNat c) else .str c)

/-- Python string comparison (less-than), lexicographic by code
point. -/
def strLt : Str → Str → Bool
  | [], [] => false
  | [], _ :: _ => true
  | _ :: _, [] => false
  | a :: as_, b :: bs =>
    if a < b then true else if b < a then false else strLt as_ bs

/-- Comparison of key elements.  In the program two compared elements
always have the same constructor, because the split keys alternate
strictly between string and integer positions; the cross cases are
given a fixed harmless value. -/
def keyElemLt : KeyElem → KeyElem → Bool
  | .int a, .int b => decide (a < b)
  | .str a, .str b => strLt a b
  | .int _, .str _ => true
  | .str _, .int _ => false

/-- Python list comparison (less-than) of natural-sort keys,
lexicographic over the elements. -/
def keyLt : List KeyElem → List KeyElem → Bool
  | [], [] => false
  | [], _ :: _ => true
  | _ :: _, [] => false
  | a :: as_, b :: bs =>
    if keyElemLt a b then true else if keyElemLt b a then false else keyLt as_ bs

/-- The comparison used by sorted(sums.keys(), key=natural_key). -/
def codeLt (a b : Str) : Bool := keyLt (natural_key a) (natural_key b)

/-- Stable insertion of an element into a sorted list: the element
goes before the first position that is not strictly smaller, so equal
keys keep their original relative order. -/
def insertStable (lt : Str → Str → Bool) (x : Str) : List Str → List Str
  | [] => [x]
  | y :: ys => if lt y x then y :: insertStable lt x ys else x :: y :: ys

/-- Stable sort by insertion, extensionally equal to Python sorted,
which is also a stable sort under the same comparison. -/
def sortStable (lt : Str → Str → Bool) : List Str → List Str
  | [] => []
  | x :: xs => insertStable lt x (sortStable lt xs)

/-- Source function consolidate_rows: sum the parsed quantities per
code, sort the codes in natural order, and render each total back to
the Brazilian format. -/
def consolidate_rows (rows : List (Str × Str)) : List (Str × Str) :=
  let sums := buildSums rows
  let sorted_codes := sortStable codeLt (sums.map Prod.fst)
  sorted_codes.map (fun code => (code, fmt_total (lookupPF sums code)))

/-- The code grammar stated by the specification: one or more digits,
optionally followed by a dot and one or more digits. -/
def gramOf (u : Str) : Prop :=
  (u ≠ [] ∧ u.all isDig = true) ∨
  (∃ d1 d2 : Str, d1 ≠ [] ∧ d2 ≠ [] ∧ d1.all isDig = true ∧ d2.all isDig = true ∧
    u = d1 ++ '.' :: d2)

/-- Modelled from the spec: a string is a valid code when, after
ignoring leading and trailing whitespace, it consists of one or more
digits optionally followed by a dot and one or more digits. -/
def specCodeGrammar (c : Str) : Prop := gramOf (pyStrip c)

/-- Length accounting of the data-row loop: every processed row lands
in exactly one of the two output lists. -/
theorem process_rows_length (t_i : Nat) :
    ∀ (r_i : Nat) (rows : List (List Str)),
      (process_rows t_i r_i rows).1.length + (process_rows t_i r_i rows).2.length
        = rows.length := by
  intro r_i rows
  induction rows generalizing r_i with
  | nil => rfl
  | cons r rest ih =>
    simp only [process_rows]
    cases classify_row (r.map norm) with
    | accepted c q =>
      simp only [List.length_cons]
      have := ih (r_i + 1)
      omega
    | skipped reason v =>
      simp only [List.length_cons]
      have := ih (r_i + 1)
      omega

/-- C1.  End-to-end scenario: a document with one target table whose
header row is Itens/Qtd and whose data rows are 17.1//5,00 and
17.1//3,50 and a not-available row yields exactly the two accepted
rows, one skip record with reason skip_code_empty_or_ND, and the
consolidated list with the single total 8,50 for code 17.1. -/
theorem c1_end_to_end :
    (extract_code_qty [[["Itens".toList, "Qtd".toList],
        ["17.1".toList, "".toList, "5,00".toList],
        ["17.1".toList, "".toList, "3,50".toList],
        ["#N/D".toList, "".toList, "1".toList]]]).1 =
      [("17.1".toList, "5,00".toList), ("17.1".toList, "3,50".toList)] ∧
    (extract_code_qty [[["Itens".toList, "Qtd".toList],
        ["17.1".toList, "".toList, "5,00".toList],
        ["17.1".toList, "".toList, "3,50".toList],
        ["#N/D".toList, "".toList, "1".toList]]]).2.ignored_details =
      [(1, 4, "skip_code_empty_or_ND", [])] ∧
    (extract_code_qty [[["Itens".toList, "Qtd".toList],
        ["17.1".toList, "".toList, "5,00".toList],
        ["17.1".toList, "".toList, "3,50".toList],
        ["#N/D".toList, "".toList, "1".toList]]]).2.rows_ignored = 1 ∧
    consolidate_rows [("17.1".toList, "5,00".toList), ("17.1".toList, "3,50".toList)] =
      [("17.1".toList, "8,50".toList)] := by
  decide

/-- C5.  Row accounting of the extraction loop on one table: the
accepted rows are at most the row count minus one, and accepted plus
skipped equals exactly the number of processed data rows. -/
theorem c5_row_accounting (t_i : Nat) (table : Table) :
    (process_table t_i table).1.length + (process_table t_i table).2.length
        = (table.drop 1).length ∧
    (process_table t_i table).1.length ≤ table.length - 1 := by
  have h := process_rows_length t_i 2 (table.drop 1)
  refine ⟨h, ?_⟩
  have hd : (table.drop 1).length = table.length - 1 := List.length_drop 1 table
  simp only [process_table]
  omega

/-- C6.  The table classifier is false on a table with no rows, and on
a nonempty table it is true exactly when some cell of the first row,
normalized and compared case-insensitively, equals itens; rows other
than the first never influence the result. -/
theorem c6_table_classifier :
    is_itens_table [] = false ∧
    (∀ (row0 : List Str) (rest : Table),
        is_itens_table (row0 :: rest) = true ↔
          ∃ c ∈ row0, (norm c).map lowChar = "itens".toList) ∧
    (∀ (row0 : List Str) (rest rest' : Table),
        is_itens_table (row0 :: rest) = is_itens_table (row0 :: rest')) := by
  refine ⟨rfl, ?_, ?_⟩
  · intro row0 rest
    simp [is_itens_table, List.any_map, List.any_eq_true, Function.comp]
  · intro row0 rest rest'
    rfl

/-- C7.  Consolidation sorts codes by the natural key that treats
digit runs as integers: the codes 17.2, 17.10, 2.1 come out in the
order 2.1, 17.2, 17.10, while plain string comparison would instead
place 17.10 before 17.2. -/
theorem c7_natural_sort :
    (consolidate_rows [("17.2".toList, "1".toList), ("17.10".toList, "1".toList),
        ("2.1".toList, "1".toList)]).map Prod.fst =
      ["2.1".toList, "17.2".toList, "17.10".toList] ∧
    natural_key "17.10".toList =
      [KeyElem.str [], KeyElem.int 17, KeyElem.str ['.'], KeyElem.int 10, KeyElem.str []] ∧
    codeLt "17.2".toList "17.10".toList = true ∧
    strLt "17.10".toList "17.2".toList = true := by
  decide

/-- C8.  The locale number parser deletes dots, turns the comma into a
dot and parses the result, yielding 1234.56 on 1.234,56 and 10.5 on
10,5; on any string whose cleaned form does not parse it returns zero
instead of failing, as on the input garbage. -/
theorem c8_locale_parse :
    parse_pt_br_float "1.234,56".toList = ⟨123456, 100⟩ ∧
    qval ⟨123456, 100⟩ = 1234.56 ∧
    parse_pt_br_float "10,5".toList = ⟨105, 10⟩ ∧
    qval ⟨105, 10⟩ = 10.5 ∧
    parse_pt_br_float "garbage".toList = ⟨0, 1⟩ ∧
    qval ⟨0, 1⟩ = 0 ∧
    (∀ s : Str, pyFloatParse (pyClean s) = none → parse_pt_br_float s = ⟨0, 1⟩) := by
  refine ⟨by decide, by norm_num [qval], by decide, by norm_num [qval],
    by decide, by norm_num [qval], ?_⟩
  intro s h
  simp [parse_pt_br_float, h]

/-- Witness for C8: the fallback branch fires on a concrete
unparseable input. -/
theorem c8_locale_parse_witness :
    parse_pt_br_float "x%".toList = ⟨0, 1⟩ :=
  c8_locale_parse.2.2.2.2.2.2 "x%".toList (by decide)

/-- C10.  Every dot of the input is removed as a thousands separator
before parsing, so a dot used as a decimal separator concatenates the
digits: 1.5 parses to fifteen, not to three halves; in general the
parser gives the same value on a string and on that string with all
dots removed. -/
theorem c10_dot_is_thousands_sep :
    parse_pt_br_float "1.5".toList = ⟨15, 1⟩ ∧
    qval ⟨15, 1⟩ = 15 ∧
    ¬ (15 : ℚ) = 1.5 ∧
    (∀ s : Str, parse_pt_br_float s =
      parse_pt_br_float (s.filter (fun c => decide (c ≠ '.')))) := by
  refine ⟨by decide, by norm_num [qval], by norm_num, ?_⟩
  intro s
  simp only [parse_pt_br_float, pyClean, List.filter_filter]
  simp

/-- Witness for C10: removing the dots of a concrete input before
parsing changes nothing. -/
theorem c10_dot_is_thousands_sep_witness :
    parse_pt_br_float " 1..5 ".toList =
      parse_pt_br_float (" 1..5 ".toList.filter (fun c => decide (c ≠ '.'))) :=
  c10_dot_is_thousands_sep.2.2.2 " 1..5 ".toList

/-- C3.  The quantity picker returns the normalized third cell when
the row has at least three cells and that cell is nonempty and not the
not-available marker; in every other case it returns the first
substring of the space-joined row matched by the three numeric shapes
in their priority order, and the empty string when none matches.  The
concrete cases exercise the thousands-grouped shape, the left-to-right
scan, the no-match fallback and the case-insensitive marker test. -/
theorem c3_quantity_picker :
    (∀ cells : List Str,
      (3 ≤ cells.length → norm (cells.getD 2 []) ≠ [] →
        (norm (cells.getD 2 [])).map upChar ≠ ndMarker →
        pick_quantity_from_row cells = norm (cells.getD 2 [])) ∧
      (¬ (3 ≤ cells.length ∧ norm (cells.getD 2 []) ≠ [] ∧
            (norm (cells.getD 2 [])).map upChar ≠ ndMarker) →
        pick_quantity_from_row cells = (findNumber (joinSp cells)).getD [])) ∧
    pick_quantity_from_row ["x".toList, "1.234,56 extra".toList] = "1.234,56".toList ∧
    pick_quantity_from_row ["5 1.234,56".toList] = "5".toList ∧
    pick_quantity_from_row ["ab".toList, "cd".toList] = [] ∧
    pick_quantity_from_row ["#N/D".toList, "".toList, "10,5".toList] = "10,5".toList ∧
    pick_quantity_from_row ["7".toList, "x".toList, "#n/d".toList] = "7".toList := by
  refine ⟨?_, by decide, by decide, by decide, by decide, by decide⟩
  intro cells
  constructor
  · intro h1 h2 h3
    simp only [pick_quantity_from_row]
    rw [if_pos h1, if_pos ⟨h2, h3⟩]
  · intro h
    simp only [pick_quantity_from_row]
    by_cases h1 : 3 ≤ cells.length
    · rw [if_pos h1, if_neg]
      intro hc
      exact h ⟨h1, hc⟩
    · rw [if_neg h1]

/-- Witness for C3: the third-cell branch fires on a concrete row. -/
theorem c3_quantity_picker_witness :
    pick_quantity_from_row ["a".toList, "b".toList, "7,5".toList] = norm "7,5".toList :=
  (c3_quantity_picker.1 ["a".toList, "b".toList, "7,5".toList]).1
    (by decide) (by decide) (by decide)

/-- The right strip only removes elements, so it yields a sublist. -/
theorem rstrip_sublist : ∀ s : Str, (rstrip s).Sublist s := by
  intro s
  induction s with
  | nil => exact List.nil_sublist []
  | cons c t ih =>
    simp only [rstrip]
    by_cases hr : (rstrip t).isEmpty
    · rw [if_pos hr]
      by_cases hc : isSpaceChar c
      · rw [if_pos hc]; exact List.nil_sublist _
      · rw [if_neg hc]; exact (List.nil_sublist t).cons₂ c
    · rw [if_neg hr]; exact ih.cons₂ c

/-- A digit appearing in a normalized string already appears in the
raw string: normalization only deletes characters or turns the
non-breaking space into a space, and neither is a digit. -/
theorem digit_mem_of_mem_norm {s : Str} {d : Char} (hd : d ∈ norm s)
    (hdig : isDig d = true) : d ∈ s := by
  have h1 : d ∈ s.map (fun c => if c.toNat = 160 then ' ' else c) := by
    have hsub : (norm s).Sublist (s.map (fun c => if c.toNat = 160 then ' ' else c)) := by
      show (rstrip (List.dropWhile isSpaceChar _)).Sublist _
      exact (rstrip_sublist _).trans (List.dropWhile_sublist _)
    exact hsub.mem hd
  obtain ⟨e, he, hfe⟩ := List.mem_map.mp h1
  by_cases h160 : e.toNat = 160
  · rw [if_pos h160] at hfe
    subst hfe
    simp [isDig] at hdig
  · rw [if_neg h160] at hfe
    subst hfe
    exact he

/-- A string accepted by CODE_RE contains a digit. -/
theorem code_match_has_digit {s : Str} (h : CODE_RE_match s = true) :
    ∃ d ∈ s, isDig d = true := by
  simp only [CODE_RE_match, coreMatch, Bool.and_eq_true] at h
  obtain ⟨h1, _⟩ := h
  rw [Bool.not_eq_true'] at h1
  cases hds : (s.dropWhile isSpaceChar).takeWhile isDig with
  | nil => rw [hds] at h1; simp at h1
  | cons d tl =>
    have hd : d ∈ (s.dropWhile isSpaceChar).takeWhile isDig := by
      rw [hds]; exact List.mem_cons_self d tl
    have hdig := List.mem_takeWhile_imp hd
    exact ⟨d, ((List.takeWhile_sublist _).trans (List.dropWhile_sublist _)).mem hd, hdig⟩

/-- The joined row text starts with the first cell. -/
theorem joinSp_cons (c0 : Str) (rest : List Str) :
    ∃ w, joinSp (c0 :: rest) = c0 ++ w := by
  cases rest with
  | nil => exact ⟨[], by simp [joinSp]⟩
  | cons y r => exact ⟨' ' :: joinSp (y :: r), rfl⟩

/-- At a starting position holding a digit some alternative matches:
the plain digit-run alternative can never fail there. -/
theorem tryAlts_ne_none_of_digit {c : Char} (r : Str) (h : isDig c = true) :
    tryAlts (c :: r) ≠ none := by
  unfold tryAlts
  cases h1 : matchAlt1 (c :: r) with
  | some m => simp
  | none =>
    cases h2 : matchAlt2 (c :: r) with
    | some m => simp
    | none => simp [matchAlt3, List.takeWhile_cons_of_pos h]

/-- The search succeeds on any text containing a digit. -/
theorem findNumber_isSome_of_digit : ∀ s : Str, (∃ d ∈ s, isDig d = true) →
    ∃ m, findNumber s = some m := by
  intro s
  induction s with
  | nil => rintro ⟨d, hd, _⟩; cases hd
  | cons c rest ih =>
    rintro ⟨d, hd, hdig⟩
    cases htry : tryAlts (c :: rest) with
    | some m => exact ⟨m, by simp [findNumber, htry]⟩
    | none =>
      rcases List.mem_cons.mp hd with rfl | hmem
      · exact absurd htry (tryAlts_ne_none_of_digit rest hdig)
      · obtain ⟨m, hm⟩ := ih ⟨d, hmem, hdig⟩
        exact ⟨m, by simp [findNumber, htry, hm]⟩

/-- Every match of the first alternative starts with a digit. -/
theorem matchAlt1_head {s m : Str} (h : matchAlt1 s = some m) :
    ∃ d tl, m = d :: tl ∧ isDig d = true := by
  simp only [matchAlt1] at h
  split at h
  · cases h
  · rename_i hcond
    split at h
    · rename_i r2 hg
      split at h
      · cases h
      · injection h with h'
        have hd1 : (s.takeWhile isDig).isEmpty = false := by
          simp only [Bool.or_eq_true, not_or] at hcond
          rw [Bool.not_eq_true] at hcond
          exact hcond.1
        cases hd1' : s.takeWhile isDig with
        | nil => rw [hd1'] at hd1; simp at hd1
        | cons x xs =>
          refine ⟨x, xs ++ (consumeGroups (s.drop (s.takeWhile isDig).length)).1
            ++ ',' :: r2.takeWhile isDig, ?_, ?_⟩
          · rw [← h', hd1']; simp
          · exact List.mem_takeWhile_imp (hd1' ▸ List.mem_cons_self x xs)
    · cases h

/-- Every match of the second alternative starts with a digit. -/
theorem matchAlt2_head {s m : Str} (h : matchAlt2 s = some m) :
    ∃ d tl, m = d :: tl ∧ isDig d = true := by
  simp only [matchAlt2] at h
  split at h
  · cases h
  · rename_i hcond
    split at h
    · rename_i r2 hg
      split at h
      · cases h
      · injection h with h'
        have hd1 : (s.takeWhile isDig).isEmpty = false := by
          rw [← Bool.not_eq_true]
          exact hcond
        cases hd1' : s.takeWhile isDig with
        | nil => rw [hd1'] at hd1; simp at hd1
        | cons x xs =>
          refine ⟨x, xs ++ ',' :: r2.takeWhile isDig, ?_, ?_⟩
          · rw [← h', hd1']; simp
          · exact List.mem_takeWhile_imp (hd1' ▸ List.mem_cons_self x xs)
    · cases h

/-- Every match of the third alternative starts with a digit. -/
theorem matchAlt3_head {s m : Str} (h : matchAlt3 s = some m) :
    ∃ d tl, m = d :: tl ∧ isDig d = true := by
  simp only [matchAlt3] at h
  split at h
  · cases h
  · rename_i hcond
    injection h with h'
    have hd1 : (s.takeWhile isDig).isEmpty = false := by
      rw [← Bool.not_eq_true]
      exact hcond
    cases hd1' : s.takeWhile isDig with
    | nil => rw [hd1'] at hd1; simp at hd1
    | cons x xs =>
      exact ⟨x, xs, by rw [← h', hd1'],
        List.mem_takeWhile_imp (hd1' ▸ List.mem_cons_self x xs)⟩

/-- Every match of the alternation starts with a digit. -/
theorem tryAlts_head {s m : Str} (h : tryAlts s = some m) :
    ∃ d tl, m = d :: tl ∧ isDig d = true := by
  unfold tryAlts at h
  cases h1 : matchAlt1 s with
  | some m0 => rw [h1] at h; injection h with h'; exact h' ▸ matchAlt1_head h1
  | none =>
    rw [h1] at h
    cases h2 : matchAlt2 s with
    | some m0 => rw [h2] at h; injection h with h'; exact h' ▸ matchAlt2_head h2
    | none => rw [h2] at h; exact matchAlt3_head h

/-- Every successful search result starts with a digit. -/
theorem findNumber_head {s m : Str} (h : findNumber s = some m) :
    ∃ d tl, m = d :: tl ∧ isDig d = true := by
  induction s with
  | nil => cases h
  | cons c rest ih =>
    simp only [findNumber] at h
    cases htry : tryAlts (c :: rest) with
    | some m0 => rw [htry] at h; simp at h; exact h ▸ tryAlts_head htry
    | none => rw [htry] at h; exact ih h

/-- Uppercasing fixes a digit. -/
theorem upChar_digit {c : Char} (h : isDig c = true) : upChar c = c := by
  simp only [isDig, Bool.and_eq_true, decide_eq_true_eq] at h
  simp only [upChar]
  rw [if_neg]
  omega

/-- C9.  When the first cell of a nonempty row passes the code
pattern, the quantity picker always returns a nonempty string that is
not the not-available marker: the joined row text contains a digit of
the code, so the fallback search always matches and every match starts
with a digit; consequently the extraction branch with reason
skip_qty_empty_or_ND can never fire, on any row at all. -/
theorem c9_skip_qty_unreachable :
    (∀ (c0 : Str) (rest : List Str), CODE_RE_match (norm c0) = true →
      pick_quantity_from_row (c0 :: rest) ≠ [] ∧
      (pick_quantity_from_row (c0 :: rest)).map upChar ≠ ndMarker) ∧
    (∀ (cells : List Str) (v : Str),
      classify_row cells ≠ RowResult.skipped "skip_qty_empty_or_ND" v) := by
  have main : ∀ (c0 : Str) (rest : List Str), CODE_RE_match (norm c0) = true →
      pick_quantity_from_row (c0 :: rest) ≠ [] ∧
      (pick_quantity_from_row (c0 :: rest)).map upChar ≠ ndMarker := by
    intro c0 rest h
    obtain ⟨d, hdnorm, hdig⟩ := code_match_has_digit h
    have hdc0 : d ∈ c0 := digit_mem_of_mem_norm hdnorm hdig
    obtain ⟨w, hw⟩ := joinSp_cons c0 rest
    have hdj : d ∈ joinSp (c0 :: rest) := by
      rw [hw]; exact List.mem_append_left _ hdc0
    obtain ⟨m, hm⟩ := findNumber_isSome_of_digit _ ⟨d, hdj, hdig⟩
    obtain ⟨dh, tl, rfl, hdh⟩ := findNumber_head hm
    have hfb1 : ((findNumber (joinSp (c0 :: rest))).getD [] : Str) = dh :: tl := by
      rw [hm]; rfl
    have key1 : (dh :: tl : Str) ≠ [] := by simp
    have key2 : ((dh :: tl : Str)).map upChar ≠ ndMarker := by
      intro hcontra
      have hhead : upChar dh = '#' := by
        have h2 : upChar dh :: tl.map upChar = '#' :: "N/D".toList := hcontra
        injection h2
      rw [upChar_digit hdh] at hhead
      rw [hhead] at hdh
      exact absurd hdh (by decide)
    simp only [pick_quantity_from_row]
    by_cases h1 : 3 ≤ (c0 :: rest).length
    · rw [if_pos h1]
      by_cases h2 : norm ((c0 :: rest).getD 2 []) ≠ [] ∧
          (norm ((c0 :: rest).getD 2 [])).map upChar ≠ ndMarker
      · rw [if_pos h2]; exact h2
      · rw [if_neg h2, hfb1]; exact ⟨key1, key2⟩
    · rw [if_neg h1, hfb1]; exact ⟨key1, key2⟩
  refine ⟨main, ?_⟩
  intro cells v
  cases cells with
  | nil =>
    intro hcontra
    simp only [classify_row] at hcontra
    injection hcontra with h1 h2
    exact absurd h1 (by decide)
  | cons c0 rest =>
    simp only [classify_row]
    by_cases hA : norm c0 = [] ∨ (norm c0).map upChar = ndMarker
    · rw [if_pos hA]
      intro hcontra
      injection hcontra with h1 h2
      exact absurd h1 (by decide)
    · rw [if_neg hA]
      by_cases hB : CODE_RE_match (norm c0) = false
      · rw [if_pos hB]
        intro hcontra
        injection hcontra with h1 h2
        exact absurd h1 (by decide)
      · rw [if_neg hB]
        have hmatch : CODE_RE_match (norm c0) = true := by
          cases hcm : CODE_RE_match (norm c0)
          · exact absurd hcm hB
          · rfl
        have hq := main c0 rest hmatch
        rw [if_neg (not_or.mpr ⟨hq.1, hq.2⟩)]
        intro hcontra
        cases hcontra

/-- Witness for C9: on a concrete row headed by a valid code the
picker result is nonempty and differs from the marker. -/
theorem c9_skip_qty_unreachable_witness :
    pick_quantity_from_row ["17.1".toList] ≠ [] ∧
    (pick_quantity_from_row ["17.1".toList]).map upChar ≠ ndMarker :=
  c9_skip_qty_unreachable.1 "17.1".toList [] (by decide)

/-- The right strip gives the empty string exactly on all-whitespace
input. -/
theorem rstrip_eq_nil_iff : ∀ s : Str, rstrip s = [] ↔ s.all isSpaceChar = true := by
  intro s
  induction s with
  | nil => simp [rstrip]
  | cons c t ih =>
    simp only [rstrip, List.all_cons, Bool.and_eq_true]
    by_cases hr : (rstrip t).isEmpty
    · rw [if_pos hr]
      have ht : t.all isSpaceChar = true := ih.mp (List.isEmpty_iff.mp hr)
      by_cases hc : isSpaceChar c
      · rw [if_pos hc]; simp [hc, ht]
      · rw [if_neg hc]; simp [hc]
    · rw [if_neg hr]
      have ht : ¬ t.all isSpaceChar = true := fun h =>
        hr (List.isEmpty_iff.mpr (ih.mpr h))
      simp [ht]

/-- Stripping an all-whitespace tail strips nothing else. -/
theorem rstrip_append_nil {b : Str} (hb : rstrip b = []) :
    ∀ a : Str, rstrip (a ++ b) = rstrip a := by
  intro a
  induction a with
  | nil => simpa using hb
  | cons c t ih =>
    show rstrip (c :: (t ++ b)) = rstrip (c :: t)
    simp only [rstrip, ih]

/-- Stripping concatenated text whose tail keeps characters strips
only inside the tail. -/
theorem rstrip_append_ne {b : Str} (hb : rstrip b ≠ []) :
    ∀ a : Str, rstrip (a ++ b) = a ++ rstrip b := by
  intro a
  induction a with
  | nil => rfl
  | cons c t ih =>
    show rstrip (c :: (t ++ b)) = c :: (t ++ rstrip b)
    simp only [rstrip, ih]
    have hne : ¬ (t ++ rstrip b).isEmpty := by
      simp only [List.isEmpty_iff, List.append_eq_nil]
      intro h
      exact hb h.2
    rw [if_neg hne]

/-- A string without whitespace is fixed by the right strip. -/
theorem rstrip_no_space : ∀ {s : Str}, (∀ x ∈ s, isSpaceChar x = false) →
    rstrip s = s := by
  intro s
  induction s with
  | nil => intro _; rfl
  | cons c t ih =>
    intro h
    have ht := ih (fun x hx => h x (List.mem_cons_of_mem c hx))
    have hc : ¬ isSpaceChar c = true := by
      rw [h c (List.mem_cons_self c t)]; simp
    simp only [rstrip, ht]
    cases t with
    | nil => simp [hc]
    | cons y ys => simp

/-- The right strip keeps a non-whitespace head in place. -/
theorem rstrip_cons_of_not_space {c : Char} (t : Str) (hc : isSpaceChar c = false) :
    rstrip (c :: t) = c :: rstrip t := by
  simp only [rstrip]
  by_cases hr : (rstrip t).isEmpty
  · rw [if_pos hr, if_neg (by simp [hc]), List.isEmpty_iff.mp hr]
  · rw [if_neg hr]

/-- A nonempty right strip of a nonempty string keeps the head. -/
theorem rstrip_cons_cases (c : Char) (t : Str) :
    rstrip (c :: t) = [] ∨ ∃ w, rstrip (c :: t) = c :: w := by
  simp only [rstrip]
  by_cases hr : (rstrip t).isEmpty
  · rw [if_pos hr]
    by_cases hc : isSpaceChar c
    · rw [if_pos hc]; exact Or.inl rfl
    · rw [if_neg hc]; exact Or.inr ⟨[], rfl⟩
  · rw [if_neg hr]; exact Or.inr ⟨rstrip t, rfl⟩

/-- Unique span decomposition: splitting at the first failing element
recovers exactly the pieces of an all-true prefix followed by a
failing element. -/
theorem span_unique {p : Char → Bool} : ∀ {a : Str} {x : Char} {b : Str},
    (∀ y ∈ a, p y = true) → p x = false →
    (a ++ x :: b).takeWhile p = a ∧ (a ++ x :: b).dropWhile p = x :: b := by
  intro a
  induction a with
  | nil =>
    intro x b _ hx
    have hx' : ¬ p x = true := by simp [hx]
    constructor
    · simp [List.takeWhile_cons_of_neg hx']
    · simp [List.dropWhile_cons_of_neg hx']
  | cons c t ih =>
    intro x b ha hx
    have hc : p c = true := ha c (List.mem_cons_self c t)
    have := @ih x b (fun y hy => ha y (List.mem_cons_of_mem c hy)) hx
    constructor
    · show ((c :: (t ++ x :: b)).takeWhile p) = c :: t
      rw [List.takeWhile_cons_of_pos hc, this.1]
    · show ((c :: (t ++ x :: b)).dropWhile p) = x :: b
      rw [List.dropWhile_cons_of_pos hc, this.2]

/-- The head surviving a dropWhile fails the predicate. -/
theorem dropWhile_head_not {p : Char → Bool} : ∀ {l : Str} {c : Char} {tl : Str},
    l.dropWhile p = c :: tl → p c = false := by
  intro l
  induction l with
  | nil => intro c tl h; cases h
  | cons a l2 ih =>
    intro c tl h
    by_cases hp : p a = true
    · rw [List.dropWhile_cons_of_pos hp] at h; exact ih h
    · rw [List.dropWhile_cons_of_neg hp] at h
      injection h with h1 _
      subst h1
      exact Bool.eq_false_iff.mpr hp

/-- A digit is not whitespace. -/
theorem isDig_not_space {c : Char} (h : isDig c = true) : isSpaceChar c = false := by
  simp only [isDig, Bool.and_eq_true, decide_eq_true_eq] at h
  apply Bool.eq_false_iff.mpr
  intro hsp
  simp only [isSpaceChar, Bool.or_eq_true, Bool.and_eq_true, decide_eq_true_eq] at hsp
  rcases hsp with ⟨h1, h2⟩ | h3 <;> omega

/-- Computation of the code matcher when nothing follows the digit
run. -/
theorem coreMatch_rest_nil {t : Str} (h : t.dropWhile isDig = []) :
    coreMatch t = !(t.takeWhile isDig).isEmpty := by
  simp [coreMatch, h]

/-- Computation of the code matcher when a dot follows the digit
run. -/
theorem coreMatch_rest_dot {t : Str} {rr : Str} (h : t.dropWhile isDig = '.' :: rr) :
    coreMatch t = (!(t.takeWhile isDig).isEmpty &&
      (!(rr.takeWhile isDig).isEmpty && (rr.dropWhile isDig).all isSpaceChar)) := by
  simp [coreMatch, h]

/-- Computation of the code matcher when a character other than a dot
follows the digit run. -/
theorem coreMatch_rest_other {t : Str} {r : Char} {rr : Str}
    (h : t.dropWhile isDig = r :: rr) (hr : r ≠ '.') :
    coreMatch t = (!(t.takeWhile isDig).isEmpty && (r :: rr).all isSpaceChar) := by
  simp only [coreMatch, h]
  congr 1
  split
  · rename_i r2 heq
    injection heq with h1 _
    exact absurd h1 hr
  · rfl

/-- What stands after the dot of a candidate code: the matcher accepts
exactly when the stripped tail is a nonempty digit run, phrased as the
grammar of the digit-dot-digit shape. -/
theorem dotTail_iff {ds : Str} (hds : ds ≠ []) (hdsall : ∀ y ∈ ds, isDig y = true)
    (rr : Str) :
    (!(rr.takeWhile isDig).isEmpty && (rr.dropWhile isDig).all isSpaceChar) = true ↔
      gramOf (ds ++ '.' :: rstrip rr) := by
  have heall : ∀ y ∈ rr.takeWhile isDig, isDig y = true := fun y hy =>
    List.mem_takeWhile_imp hy
  have hsplit : rr.takeWhile isDig ++ rr.dropWhile isDig = rr :=
    List.takeWhile_append_dropWhile isDig rr
  by_cases hf : (rr.dropWhile isDig).all isSpaceChar = true
  · have hrs : rstrip rr = rr.takeWhile isDig := by
      conv_lhs => rw [← hsplit]
      rw [rstrip_append_nil ((rstrip_eq_nil_iff _).mpr hf)]
      exact rstrip_no_space (fun y hy => isDig_not_space (heall y hy))
    rw [hrs, hf, Bool.and_true]
    constructor
    · intro he
      have hene : rr.takeWhile isDig ≠ [] := by
        intro h; rw [h] at he; simp at he
      exact Or.inr ⟨ds, rr.takeWhile isDig, hds, hene,
        List.all_eq_true.mpr hdsall, List.all_eq_true.mpr heall, rfl⟩
    · intro hg
      rcases hg with ⟨_, hall⟩ | ⟨d1, d2, hd1, hd2, hall1, hall2, heq⟩
      · exfalso
        have hdot : ('.' : Char) ∈ ds ++ '.' :: rr.takeWhile isDig :=
          List.mem_append_right _ (List.mem_cons_self _ _)
        have := (List.all_eq_true.mp hall) '.' hdot
        exact absurd this (by decide)
      · have h1 := span_unique (p := isDig) (b := rr.takeWhile isDig) hdsall
          (by decide : isDig '.' = false)
        have h2 := span_unique (p := isDig) (b := d2) (List.all_eq_true.mp hall1)
          (by decide : isDig '.' = false)
        have e1 := h1.2
        rw [heq, h2.2] at e1
        have hteq : d2 = rr.takeWhile isDig := by injection e1
        rw [← hteq]
        rw [Bool.not_eq_true']
        exact Bool.eq_false_iff.mpr (fun h => hd2 (List.isEmpty_iff.mp h))
  · have hf' : (rr.dropWhile isDig).all isSpaceChar = false := Bool.eq_false_iff.mpr hf
    rw [hf', Bool.and_false]
    simp only [Bool.false_eq_true, false_iff]
    intro hg
    have hfne : rr.dropWhile isDig ≠ [] := by intro h; rw [h] at hf; simp at hf
    obtain ⟨g, gg, hgf⟩ := List.exists_cons_of_ne_nil hfne
    have hgdig : isDig g = false := dropWhile_head_not hgf
    have hrsf : rstrip (rr.dropWhile isDig) ≠ [] := by
      intro h; rw [rstrip_eq_nil_iff] at h; exact hf h
    have hrr : rstrip rr = rr.takeWhile isDig ++ rstrip (rr.dropWhile isDig) := by
      conv_lhs => rw [← hsplit]
      exact rstrip_append_ne hrsf _
    obtain ⟨w, hwr⟩ : ∃ w, rstrip (rr.dropWhile isDig) = g :: w := by
      rw [hgf]
      rcases rstrip_cons_cases g gg with h | h
      · rw [hgf] at hrsf; exact absurd h hrsf
      · exact h
    rw [hrr, hwr] at hg
    rcases hg with ⟨_, hall⟩ | ⟨d1, d2, hd1, hd2, hall1, hall2, heq⟩
    · have hdot : ('.' : Char) ∈ ds ++ '.' :: (rr.takeWhile isDig ++ g :: w) :=
        List.mem_append_right _ (List.mem_cons_self _ _)
      have := (List.all_eq_true.mp hall) '.' hdot
      exact absurd this (by decide)
    · have h1 := span_unique (p := isDig) (b := rr.takeWhile isDig ++ g :: w) hdsall
        (by decide : isDig '.' = false)
      have h2 := span_unique (p := isDig) (b := d2) (List.all_eq_true.mp hall1)
        (by decide : isDig '.' = false)
      have e1 := h1.2
      rw [heq, h2.2] at e1
      have hd2eq : d2 = rr.takeWhile isDig ++ g :: w := by injection e1
      have hgd2 : g ∈ d2 := by
        rw [hd2eq]; exact List.mem_append_right _ (List.mem_cons_self _ _)
      have := (List.all_eq_true.mp hall2) g hgd2
      rw [hgdig] at this; cases this

/-- The code matcher accepts exactly the strings whose right-stripped
form fits the digit grammar (the left strip has already been taken off
the argument). -/
theorem coreMatch_iff (t : Str) : coreMatch t = true ↔ gramOf (rstrip t) := by
  have hsplit : t.takeWhile isDig ++ t.dropWhile isDig = t :=
    List.takeWhile_append_dropWhile isDig t
  have hdsall : ∀ y ∈ t.takeWhile isDig, isDig y = true := fun y hy =>
    List.mem_takeWhile_imp hy
  by_cases hds0 : t.takeWhile isDig = []
  · have hcm : coreMatch t = false := by simp [coreMatch, hds0]
    rw [hcm]
    simp only [Bool.false_eq_true, false_iff]
    intro hg
    cases ht : t with
    | nil =>
      rw [ht] at hg
      rcases hg with ⟨hne, _⟩ | ⟨d1, d2, hd1, _, _, _, heq⟩
      · exact hne rfl
      · cases d1 with
        | nil => exact absurd rfl hd1
        | cons x xs => cases heq
    | cons c t2 =>
      have hcdig : isDig c = false := by
        rw [ht, List.takeWhile_cons] at hds0
        by_cases hc : isDig c = true
        · rw [if_pos hc] at hds0; cases hds0
        · exact Bool.eq_false_iff.mpr hc
      rw [ht] at hg
      rcases rstrip_cons_cases c t2 with hrs | ⟨w, hrs⟩
      · rw [hrs] at hg
        rcases hg with ⟨hne, _⟩ | ⟨d1, d2, hd1, _, _, _, heq⟩
        · exact hne rfl
        · cases d1 with
          | nil => exact absurd rfl hd1
          | cons x xs => cases heq
      · rw [hrs] at hg
        rcases hg with ⟨_, hall⟩ | ⟨d1, d2, hd1, hd2, hall1, hall2, heq⟩
        · have := (List.all_eq_true.mp hall) c (List.mem_cons_self c w)
          rw [hcdig] at this; cases this
        · cases d1 with
          | nil => exact absurd rfl hd1
          | cons x xs =>
            have hx : isDig x = true :=
              (List.all_eq_true.mp hall1) x (List.mem_cons_self x xs)
            rw [List.cons_append] at heq
            have hcx : c = x := by injection heq
            rw [hcx, hx] at hcdig; cases hcdig
  · have hdsE : (t.takeWhile isDig).isEmpty = false :=
      Bool.eq_false_iff.mpr (fun h => hds0 (List.isEmpty_iff.mp h))
    by_cases hsp : (t.dropWhile isDig).all isSpaceChar = true
    · have hrs : rstrip t = t.takeWhile isDig := by
        conv_lhs => rw [← hsplit]
        rw [rstrip_append_nil ((rstrip_eq_nil_iff _).mpr hsp)]
        exact rstrip_no_space (fun y hy => isDig_not_space (hdsall y hy))
      have hcm : coreMatch t = true := by
        rcases hrest : t.dropWhile isDig with _ | ⟨r, rr⟩
        · rw [coreMatch_rest_nil hrest, hdsE]; rfl
        · have hrspace : isSpaceChar r = true := by
            rw [hrest] at hsp
            exact (List.all_eq_true.mp hsp) r (List.mem_cons_self r rr)
          have hrne : r ≠ '.' := by
            intro h; rw [h] at hrspace; exact absurd hrspace (by decide)
          rw [coreMatch_rest_other hrest hrne, ← hrest, hsp, hdsE]; rfl
      rw [hcm, hrs]
      simp only [true_iff]
      exact Or.inl ⟨hds0, List.all_eq_true.mpr hdsall⟩
    · have hfne : t.dropWhile isDig ≠ [] := by intro h; rw [h] at hsp; simp at hsp
      obtain ⟨r, rr, hrest⟩ := List.exists_cons_of_ne_nil hfne
      have hrdig : isDig r = false := dropWhile_head_not hrest
      have hrsne : rstrip (t.dropWhile isDig) ≠ [] := by
        intro h; rw [rstrip_eq_nil_iff] at h; exact hsp h
      have hrt : rstrip t = t.takeWhile isDig ++ rstrip (t.dropWhile isDig) := by
        conv_lhs => rw [← hsplit]
        exact rstrip_append_ne hrsne _
      by_cases hr : r = '.'
      · subst hr
        have hrsdot : rstrip (t.dropWhile isDig) = '.' :: rstrip rr := by
          rw [hrest]; exact rstrip_cons_of_not_space rr (by decide)
        rw [coreMatch_rest_dot hrest, hrt, hrsdot, hdsE]
        show (!false && _) = true ↔ _
        rw [Bool.not_false, Bool.true_and]
        exact dotTail_iff hds0 hdsall rr
      · have hcm : coreMatch t = false := by
          rw [coreMatch_rest_other hrest hr, ← hrest,
            Bool.eq_false_iff.mpr hsp, Bool.and_false]
        rw [hcm]
        simp only [Bool.false_eq_true, false_iff]
        intro hg
        obtain ⟨w, hwr⟩ : ∃ w, rstrip (t.dropWhile isDig) = r :: w := by
          rw [hrest]
          rcases rstrip_cons_cases r rr with h | h
          · rw [hrest] at hrsne; exact absurd h hrsne
          · exact h
        rw [hrt, hwr] at hg
        rcases hg with ⟨_, hall⟩ | ⟨d1, d2, hd1, hd2, hall1, hall2, heq⟩
        · have hrmem : r ∈ t.takeWhile isDig ++ r :: w :=
            List.mem_append_right _ (List.mem_cons_self r w)
          have := (List.all_eq_true.mp hall) r hrmem
          rw [hrdig] at this; cases this
        · have h1 := span_unique (p := isDig) (b := w) hdsall hrdig
          have h2 := span_unique (p := isDig) (b := d2) (List.all_eq_true.mp hall1)
            (by decide : isDig '.' = false)
          have e1 := h1.2
          rw [heq, h2.2] at e1
          have hh : ('.' : Char) = r := by injection e1
          exact hr hh.symm

/-- C2.  The code validator accepts a string exactly when, after
ignoring surrounding whitespace, it is one or more digits optionally
followed by a dot and one or more digits; in particular it rejects the
empty string, alphabetic codes, multi-dot codes and negative
numbers. -/
theorem c2_code_validator :
    (∀ c : Str, CODE_RE_match c = true ↔ specCodeGrammar c) ∧
    CODE_RE_match [] = false ∧
    CODE_RE_match "abc".toList = false ∧
    CODE_RE_match "1.2.3".toList = false ∧
    CODE_RE_match "-5".toList = false ∧
    CODE_RE_match " 17.4 ".toList = true := by
  refine ⟨?_, by decide, by decide, by decide, by decide, by decide⟩
  intro c
  exact coreMatch_iff (c.dropWhile isSpaceChar)

/-- Trichotomy of Python string comparison. -/
theorem strLt_trichot : ∀ a b : Str, strLt a b = true ∨ a = b ∨ strLt b a = true := by
  intro a
  induction a with
  | nil =>
    intro b
    cases b with
    | nil => exact Or.inr (Or.inl rfl)
    | cons y ys => exact Or.inl rfl
  | cons x xs ih =>
    intro b
    cases b with
    | nil => exact Or.inr (Or.inr rfl)
    | cons y ys =>
      rcases lt_trichotomy x y with h | h | h
      · left; simp [strLt, h]
      · subst h
        rcases ih ys with h2 | h2 | h2
        · left; simp [strLt, lt_irrefl, h2]
        · right; left; rw [h2]
        · right; right; simp [strLt, lt_irrefl, h2]
      · right; right; simp [strLt, h, lt_asymm h]

/-- Asymmetry of Python string comparison. -/
theorem strLt_asymm : ∀ a b : Str, strLt a b = true → strLt b a = false := by
  intro a
  induction a with
  | nil =>
    intro b h
    cases b with
    | nil => exact absurd h (by decide)
    | cons y ys => rfl
  | cons x xs ih =>
    intro b h
    cases b with
    | nil => exact Bool.noConfusion h
    | cons y ys =>
      simp only [strLt] at h ⊢
      by_cases h1 : x < y
      · rw [if_neg (lt_asymm h1), if_pos h1]
      · rw [if_neg h1] at h
        by_cases h2 : y < x
        · rw [if_pos h2] at h; exact Bool.noConfusion h
        · rw [if_neg h2] at h
          rw [if_neg h2, if_neg h1]
          exact ih ys h

/-- Transitivity of Python string comparison. -/
theorem strLt_trans : ∀ a b c : Str,
    strLt a b = true → strLt b c = true → strLt a c = true := by
  intro a
  induction a with
  | nil =>
    intro b c hab hbc
    cases c with
    | nil =>
      cases b with
      | nil => exact hbc
      | cons y ys => exact absurd hbc (by simp [strLt])
    | cons z zs => rfl
  | cons x xs ih =>
    intro b c hab hbc
    cases b with
    | nil => exact Bool.noConfusion hab
    | cons y ys =>
      cases c with
      | nil => exact absurd hbc (by simp [strLt])
      | cons z zs =>
        simp only [strLt] at hab hbc ⊢
        by_cases h1 : x < y
        · by_cases h2 : y < z
          · rw [if_pos (lt_trans h1 h2)]
          · rw [if_neg h2] at hbc
            by_cases h3 : z < y
            · rw [if_pos h3] at hbc; exact Bool.noConfusion hbc
            · have hyz : y = z := le_antisymm (not_lt.mp h3) (not_lt.mp h2)
              subst hyz
              rw [if_pos h1]
        · rw [if_neg h1] at hab
          by_cases h1' : y < x
          · rw [if_pos h1'] at hab; exact Bool.noConfusion hab
          · rw [if_neg h1'] at hab
            have hxy : x = y := le_antisymm (not_lt.mp h1') (not_lt.mp h1)
            subst hxy
            by_cases h2 : x < z
            · rw [if_pos h2]
            · rw [if_neg h2] at hbc ⊢
              by_cases h3 : z < x
              · rw [if_pos h3] at hbc; exact Bool.noConfusion hbc
              · rw [if_neg h3] at hbc ⊢
                exact ih ys zs hab hbc

/-- Trichotomy of the key-element comparison. -/
theorem keyElemLt_trichot : ∀ a b : KeyElem,
    keyElemLt a b = true ∨ a = b ∨ keyElemLt b a = true := by
  intro a b
  cases a with
  | int m =>
    cases b with
    | int n =>
      rcases Nat.lt_trichotomy m n with h | h | h
      · left; simp [keyElemLt, h]
      · right; left; rw [h]
      · right; right; simp [keyElemLt, h]
    | str s => left; rfl
  | str s =>
    cases b with
    | int n => right; right; rfl
    | str t =>
      rcases strLt_trichot s t with h | h | h
      · left; simpa [keyElemLt] using h
      · right; left; rw [h]
      · right; right; simpa [keyElemLt] using h

/-- Asymmetry of the key-element comparison. -/
theorem keyElemLt_asymm : ∀ a b : KeyElem,
    keyElemLt a b = true → keyElemLt b a = false := by
  intro a b h
  cases a with
  | int m =>
    cases b with
    | int n =>
      simp only [keyElemLt, decide_eq_true_eq] at h
      simp only [keyElemLt, decide_eq_false_iff_not]
      omega
    | str s => rfl
  | str s =>
    cases b with
    | int n => exact absurd h (by simp [keyElemLt])
    | str t =>
      simp only [keyElemLt] at h ⊢
      exact strLt_asymm s t h

/-- Transitivity of the key-element comparison. -/
theorem keyElemLt_trans : ∀ a b c : KeyElem,
    keyElemLt a b = true → keyElemLt b c = true → keyElemLt a c = true := by
  intro a b c hab hbc
  cases a with
  | int m =>
    cases b with
    | int n =>
      cases c with
      | int p =>
        simp only [keyElemLt, decide_eq_true_eq] at hab hbc ⊢
        omega
      | str s => rfl
    | str s =>
      cases c with
      | int p => exact absurd hbc (by simp [keyElemLt])
      | str t => rfl
  | str s =>
    cases b with
    | int n => exact absurd hab (by simp [keyElemLt])
    | str t =>
      cases c with
      | int p => exact absurd hbc (by simp [keyElemLt])
      | str u =>
        simp only [keyElemLt] at hab hbc ⊢
        exact strLt_trans s t u hab hbc

/-- Equal key elements from failed comparisons in both directions. -/
theorem keyElemLt_conn {a b : KeyElem} (h1 : keyElemLt a b = false)
    (h2 : keyElemLt b a = false) : a = b := by
  rcases keyElemLt_trichot a b with h | h | h
  · rw [h1] at h; exact Bool.noConfusion h
  · exact h
  · rw [h2] at h; exact Bool.noConfusion h

/-- Irreflexivity of the key-element comparison. -/
theorem keyElemLt_irrefl (x : KeyElem) : keyElemLt x x = false := by
  by_cases h : keyElemLt x x = true
  · have hf := keyElemLt_asymm x x h
    rw [h] at hf
    exact Bool.noConfusion hf
  · exact Bool.eq_false_iff.mpr h

/-- Trichotomy of the natural-key comparison. -/
theorem keyLt_trichot : ∀ a b : List KeyElem,
    keyLt a b = true ∨ a = b ∨ keyLt b a = true := by
  intro a
  induction a with
  | nil =>
    intro b
    cases b with
    | nil => exact Or.inr (Or.inl rfl)
    | cons y ys => exact Or.inl rfl
  | cons x xs ih =>
    intro b
    cases b with
    | nil => exact Or.inr (Or.inr rfl)
    | cons y ys =>
      rcases keyElemLt_trichot x y with h | h | h
      · left; simp [keyLt, h]
      · subst h
        rcases ih ys with h2 | h2 | h2
        · left; simp only [keyLt]
          rw [keyElemLt_irrefl]; simp [h2]
        · right; left; rw [h2]
        · right; right; simp only [keyLt]
          rw [keyElemLt_irrefl]; simp [h2]
      · right; right; simp [keyLt, h, keyElemLt_asymm y x h]

/-- Asymmetry of the natural-key comparison. -/
theorem keyLt_asymm : ∀ a b : List KeyElem, keyLt a b = true → keyLt b a = false := by
  intro a
  induction a with
  | nil =>
    intro b h
    cases b with
    | nil => exact absurd h (by decide)
    | cons y ys => rfl
  | cons x xs ih =>
    intro b h
    cases b with
    | nil => exact Bool.noConfusion h
    | cons y ys =>
      simp only [keyLt] at h ⊢
      by_cases h1 : keyElemLt x y = true
      · rw [keyElemLt_asymm x y h1]
        simp [h1]
      · rw [if_neg h1] at h
        by_cases h2 : keyElemLt y x = true
        · rw [if_pos h2] at h; exact Bool.noConfusion h
        · rw [if_neg h2] at h
          rw [if_neg h2, if_neg h1]
          exact ih ys h

/-- Transitivity of the natural-key comparison. -/
theorem keyLt_trans : ∀ a b c : List KeyElem,
    keyLt a b = true → keyLt b c = true → keyLt a c = true := by
  intro a
  induction a with
  | nil =>
    intro b c hab hbc
    cases c with
    | nil =>
      cases b with
      | nil => exact hbc
      | cons y ys => exact absurd hbc (by simp [keyLt])
    | cons z zs => rfl
  | cons x xs ih =>
    intro b c hab hbc
    cases b with
    | nil => exact Bool.noConfusion hab
    | cons y ys =>
      cases c with
      | nil => exact absurd hbc (by simp [keyLt])
      | cons z zs =>
        simp only [keyLt] at hab hbc ⊢
        by_cases h1 : keyElemLt x y = true
        · by_cases h2 : keyElemLt y z = true
          · rw [if_pos (keyElemLt_trans x y z h1 h2)]
          · rw [if_neg h2] at hbc
            by_cases h3 : keyElemLt z y = true
            · rw [if_pos h3] at hbc; exact Bool.noConfusion hbc
            · have hyz : y = z := keyElemLt_conn
                (Bool.eq_false_iff.mpr h2) (Bool.eq_false_iff.mpr h3)
              subst hyz
              rw [if_pos h1]
        · rw [if_neg h1] at hab
          by_cases h1' : keyElemLt y x = true
          · rw [if_pos h1'] at hab; exact Bool.noConfusion hab
          · rw [if_neg h1'] at hab
            have hxy : x = y := keyElemLt_conn
              (Bool.eq_false_iff.mpr h1) (Bool.eq_false_iff.mpr h1')
            subst hxy
            by_cases h2 : keyElemLt x z = true
            · rw [if_pos h2]
            · rw [if_neg h2] at hbc ⊢
              by_cases h3 : keyElemLt z x = true
              · rw [if_pos h3] at hbc; exact Bool.noConfusion hbc
              · rw [if_neg h3] at hbc ⊢
                exact ih ys zs hab hbc

/-- Asymmetry of the code comparison used by the consolidation sort. -/
theorem codeLt_asymm : ∀ a b : Str, codeLt a b = true → codeLt b a = false :=
  fun a b h => keyLt_asymm (natural_key a) (natural_key b) h

/-- Transitivity of the negated code comparison, the form needed for
insertion sorting. -/
theorem codeLt_le_trans : ∀ a b c : Str,
    codeLt b a = false → codeLt c b = false → codeLt c a = false := by
  intro a b c h1 h2
  simp only [codeLt] at h1 h2 ⊢
  apply Bool.eq_false_iff.mpr
  intro h3
  rcases keyLt_trichot (natural_key b) (natural_key c) with h4 | h4 | h4
  · have := keyLt_trans _ _ _ h4 h3
    rw [h1] at this; exact Bool.noConfusion this
  · rw [h4] at h1
    rw [h1] at h3; exact Bool.noConfusion h3
  · rw [h2] at h4; exact Bool.noConfusion h4

/-- Stable insertion permutes the element onto the list. -/
theorem insertStable_perm (lt : Str → Str → Bool) (x : Str) :
    ∀ l : List Str, (insertStable lt x l).Perm (x :: l) := by
  intro l
  induction l with
  | nil => exact List.Perm.refl _
  | cons y ys ih =>
    simp only [insertStable]
    by_cases h : lt y x = true
    · rw [if_pos h]
      exact (ih.cons y).trans (List.Perm.swap x y ys)
    · rw [if_neg h]

/-- The stable sort permutes its input. -/
theorem sortStable_perm (lt : Str → Str → Bool) :
    ∀ l : List Str, (sortStable lt l).Perm l := by
  intro l
  induction l with
  | nil => exact List.Perm.refl _
  | cons x xs ih => exact (insertStable_perm lt x _).trans (ih.cons x)

/-- Stable insertion into a sorted list keeps it sorted, for an
asymmetric comparison whose negation is transitive. -/
theorem insertStable_pairwise (lt : Str → Str → Bool)
    (hasym : ∀ a b, lt a b = true → lt b a = false)
    (htot : ∀ a b c, lt b a = false → lt c b = false → lt c a = false)
    (x : Str) : ∀ l : List Str, l.Pairwise (fun a b => lt b a = false) →
      (insertStable lt x l).Pairwise (fun a b => lt b a = false) := by
  intro l
  induction l with
  | nil => intro _; exact List.pairwise_singleton _ _
  | cons y ys ih =>
    intro hl
    rw [List.pairwise_cons] at hl
    obtain ⟨hy, hys⟩ := hl
    simp only [insertStable]
    by_cases h : lt y x = true
    · rw [if_pos h]
      rw [List.pairwise_cons]
      refine ⟨?_, ih hys⟩
      intro z hz
      have hz' : z ∈ x :: ys := (insertStable_perm lt x ys).mem_iff.mp hz
      rcases List.mem_cons.mp hz' with rfl | hzys
      · exact hasym _ _ h
      · exact hy z hzys
    · rw [if_neg h]
      rw [List.pairwise_cons]
      constructor
      · intro z hz
        rcases List.mem_cons.mp hz with rfl | hzys
        · exact Bool.eq_false_iff.mpr h
        · exact htot x y z (Bool.eq_false_iff.mpr h) (hy z hzys)
      · exact List.pairwise_cons.mpr ⟨hy, hys⟩

/-- The stable sort sorts, for an asymmetric comparison whose
negation is transitive. -/
theorem sortStable_pairwise (lt : Str → Str → Bool)
    (hasym : ∀ a b, lt a b = true → lt b a = false)
    (htot : ∀ a b c, lt b a = false → lt c b = false → lt c a = false) :
    ∀ l : List Str, (sortStable lt l).Pairwise (fun a b => lt b a = false) := by
  intro l
  induction l with
  | nil => exact List.Pairwise.nil
  | cons x xs ih => exact insertStable_pairwise lt hasym htot x _ ih

/-- Two sorted permutations of each other coincide when the natural
keys of the listed codes are pairwise distinct. -/
theorem sorted_unique : ∀ l₁ l₂ : List Str, l₁.Perm l₂ →
    l₁.Pairwise (fun a b => codeLt b a = false) →
    l₂.Pairwise (fun a b => codeLt b a = false) →
    (∀ a ∈ l₁, ∀ b ∈ l₁, natural_key a = natural_key b → a = b) →
    l₁ = l₂ := by
  intro l₁
  induction l₁ with
  | nil =>
    intro l₂ hp _ _ _
    exact (List.Perm.eq_nil hp.symm).symm
  | cons x t₁ ih =>
    intro l₂ hp h₁ h₂ hinj
    cases l₂ with
    | nil => exact absurd (List.Perm.eq_nil hp) (by simp)
    | cons y t₂ =>
      rw [List.pairwise_cons] at h₁ h₂
      have hxy : x = y := by
        have hx2 : x ∈ y :: t₂ := hp.subset (List.mem_cons_self x t₁)
        rcases List.mem_cons.mp hx2 with h | hxt₂
        · exact h
        · have hy1 : y ∈ x :: t₁ := hp.symm.subset (List.mem_cons_self y t₂)
          rcases List.mem_cons.mp hy1 with h | hyt₁
          · exact h.symm
          · have e1 : codeLt x y = false := h₂.1 x hxt₂
            have e2 : codeLt y x = false := h₁.1 y hyt₁
            simp only [codeLt] at e1 e2
            have hk : natural_key x = natural_key y := by
              rcases keyLt_trichot (natural_key x) (natural_key y) with h | h | h
              · rw [e1] at h; exact Bool.noConfusion h
              · exact h
              · rw [e2] at h; exact Bool.noConfusion h
            exact hinj x (List.mem_cons_self x t₁) y (List.mem_cons_of_mem x hyt₁) hk
      subst hxy
      have ht : t₁.Perm t₂ := hp.cons_inv
      have heq : t₁ = t₂ := ih t₂ ht h₁.2 h₂.2
        (fun a ha b hb hk =>
          hinj a (List.mem_cons_of_mem x ha) b (List.mem_cons_of_mem x hb) hk)
      rw [heq]

/-- The keys of one defaultdict update: an existing code leaves the
key list unchanged, a new code is appended at the end. -/
theorem map_fst_addTo : ∀ (acc : List (Str × PyFloat)) (c : Str) (v : PyFloat),
    (addTo acc c v).map Prod.fst =
      if c ∈ acc.map Prod.fst then acc.map Prod.fst else acc.map Prod.fst ++ [c] := by
  intro acc
  induction acc with
  | nil => intro c v; simp [addTo]
  | cons p rest ih =>
    obtain ⟨c1, v1⟩ := p
    intro c v
    simp only [addTo]
    by_cases h : c1 = c
    · subst h
      rw [if_pos rfl, if_pos (by simp)]
      simp
    · rw [if_neg h]
      simp only [List.map_cons]
      rw [ih]
      by_cases h2 : c ∈ rest.map Prod.fst
      · rw [if_pos h2, if_pos (List.mem_cons_of_mem _ h2)]
      · rw [if_neg h2, if_neg ?ne]
        case ne =>
          intro hc
          rcases List.mem_cons.mp hc with hc1 | hc2
          · exact h hc1.symm
          · exact h2 hc2
        simp

/-- Membership in the key list of the built sums mapping. -/
theorem mem_keys_buildSumsAux : ∀ (rows : List (Str × Str))
    (acc : List (Str × PyFloat)) (a : Str),
    a ∈ (buildSumsAux acc rows).map Prod.fst ↔
      a ∈ acc.map Prod.fst ∨ a ∈ rows.map Prod.fst := by
  intro rows
  induction rows with
  | nil => intro acc a; simp [buildSumsAux]
  | cons p rest ih =>
    obtain ⟨c, q⟩ := p
    intro acc a
    show a ∈ (buildSumsAux (addTo acc c (parse_pt_br_float q)) rest).map Prod.fst ↔ _
    rw [ih, map_fst_addTo]
    by_cases h : c ∈ acc.map Prod.fst
    · rw [if_pos h]
      simp only [List.map_cons, List.mem_cons]
      constructor
      · rintro (ha | ha)
        · exact Or.inl ha
        · exact Or.inr (Or.inr ha)
      · rintro (ha | rfl | ha)
        · exact Or.inl ha
        · exact Or.inl h
        · exact Or.inr ha
    · rw [if_neg h]
      simp only [List.mem_append, List.mem_singleton, List.map_cons, List.mem_cons]
      tauto

/-- The key list of the built sums mapping has no duplicates. -/
theorem nodup_keys_buildSumsAux : ∀ (rows : List (Str × Str))
    (acc : List (Str × PyFloat)),
    (acc.map Prod.fst).Nodup → ((buildSumsAux acc rows).map Prod.fst).Nodup := by
  intro rows
  induction rows with
  | nil => intro acc h; exact h
  | cons p rest ih =>
    obtain ⟨c, q⟩ := p
    intro acc h
    show ((buildSumsAux (addTo acc c (parse_pt_br_float q)) rest).map Prod.fst).Nodup
    apply ih
    rw [map_fst_addTo]
    by_cases hc : c ∈ acc.map Prod.fst
    · rw [if_pos hc]; exact h
    · rw [if_neg hc]
      rw [List.nodup_append]
      refine ⟨h, List.nodup_singleton c, ?_⟩
      intro x hx hx2
      rw [List.mem_singleton] at hx2
      exact hc (hx2 ▸ hx)

/-- Counterexample to C4 as stated: the codes 1 and 01 are distinct
but share the natural key, so Python's stable sort falls back to the
insertion order of the sums dictionary, which follows the row order;
permuting the two rows permutes the consolidated output. -/
theorem c4_counterexample :
    ([(("1").toList, ("1").toList), (("01").toList, ("1").toList)]
        : List (Str × Str)).Perm
      [(("01").toList, ("1").toList), (("1").toList, ("1").toList)] ∧
    consolidate_rows [(("1").toList, ("1").toList), (("01").toList, ("1").toList)] ≠
      consolidate_rows [(("01").toList, ("1").toList), (("1").toList, ("1").toList)] := by
  constructor
  · exact List.Perm.swap _ _ _
  · decide

/-- The code column of the consolidated output is the natural-sorted
key list of the sums dictionary; the accumulated quantities play no
part in it. -/
theorem consolidate_codes (rows : List (Str × Str)) :
    (consolidate_rows rows).map Prod.fst =
      sortStable codeLt ((buildSums rows).map Prod.fst) := by
  show ((sortStable codeLt ((buildSums rows).map Prod.fst)).map
      (fun code => (code, fmt_total (lookupPF (buildSums rows) code)))).map Prod.fst = _
  rw [List.map_map]
  have h : (Prod.fst ∘ fun code : Str =>
      (code, fmt_total (lookupPF (buildSums rows) code))) = id := rfl
  rw [h, List.map_id]

/-- C4 as amended.  Permuting the extracted rows yields a consolidated
output listing the same distinct codes up to order, and exactly the
same code sequence whenever the distinct codes of the input have
pairwise distinct natural keys.  Only the code order is claimed: it is
computed from the key insertion order and the natural-key sort alone,
never from the accumulated quantities, so this invariance holds of the
program however float addition rounds.  The rendered totals are not
claimed invariant: binary64 addition rounds after every step and is
not associative, so reordering rows of one code can change its total
(summing 10000000000000000, 1, 1 in that order gives 1e16 while 1, 1,
10000000000000000 gives 1.0000000000000002e16). -/
theorem c4_consolidator_perm :
    ∀ rows₁ rows₂ : List (Str × Str), rows₁.Perm rows₂ →
      ((consolidate_rows rows₁).map Prod.fst).Perm
        ((consolidate_rows rows₂).map Prod.fst) ∧
      ((∀ a ∈ rows₁.map Prod.fst, ∀ b ∈ rows₁.map Prod.fst,
          natural_key a = natural_key b → a = b) →
        (consolidate_rows rows₁).map Prod.fst =
          (consolidate_rows rows₂).map Prod.fst) := by
  intro rows₁ rows₂ hp
  have hk1 : ((buildSums rows₁).map Prod.fst).Nodup :=
    nodup_keys_buildSumsAux rows₁ [] (by simp)
  have hk2 : ((buildSums rows₂).map Prod.fst).Nodup :=
    nodup_keys_buildSumsAux rows₂ [] (by simp)
  have hmem : ∀ a, a ∈ (buildSums rows₁).map Prod.fst ↔
      a ∈ (buildSums rows₂).map Prod.fst := by
    intro a
    show a ∈ (buildSumsAux [] rows₁).map Prod.fst ↔
      a ∈ (buildSumsAux [] rows₂).map Prod.fst
    rw [mem_keys_buildSumsAux, mem_keys_buildSumsAux]
    simp only [List.map_nil, List.not_mem_nil, false_or]
    exact (hp.map Prod.fst).mem_iff
  have hkp : ((buildSums rows₁).map Prod.fst).Perm ((buildSums rows₂).map Prod.fst) :=
    (List.perm_ext_iff_of_nodup hk1 hk2).mpr hmem
  have hsp : (sortStable codeLt ((buildSums rows₁).map Prod.fst)).Perm
      (sortStable codeLt ((buildSums rows₂).map Prod.fst)) :=
    ((sortStable_perm _ _).trans hkp).trans (sortStable_perm _ _).symm
  constructor
  · rw [consolidate_codes, consolidate_codes]
    exact hsp
  · intro hinj
    have hsorted1 := sortStable_pairwise codeLt codeLt_asymm codeLt_le_trans
      ((buildSums rows₁).map Prod.fst)
    have hsorted2 := sortStable_pairwise codeLt codeLt_asymm codeLt_le_trans
      ((buildSums rows₂).map Prod.fst)
    have hinj' : ∀ a ∈ sortStable codeLt ((buildSums rows₁).map Prod.fst),
        ∀ b ∈ sortStable codeLt ((buildSums rows₁).map Prod.fst),
        natural_key a = natural_key b → a = b := by
      intro a ha b hb hk
      have ha2 : a ∈ (buildSums rows₁).map Prod.fst := (sortStable_perm _ _).subset ha
      have hb2 : b ∈ (buildSums rows₁).map Prod.fst := (sortStable_perm _ _).subset hb
      have ha3 : a ∈ rows₁.map Prod.fst := by
        have := (mem_keys_buildSumsAux rows₁ [] a).mp ha2
        simpa using this
      have hb3 : b ∈ rows₁.map Prod.fst := by
        have := (mem_keys_buildSumsAux rows₁ [] b).mp hb2
        simpa using this
      exact hinj a ha3 b hb3 hk
    have hkeys : sortStable codeLt ((buildSums rows₁).map Prod.fst)
        = sortStable codeLt ((buildSums rows₂).map Prod.fst) :=
      sorted_unique _ _ hsp hsorted1 hsorted2 hinj'
    rw [consolidate_codes, consolidate_codes]
    exact hkeys

/-- Witness for C4 as amended: swapping two rows with key-distinct
codes leaves the sequence of consolidated codes unchanged. -/
theorem c4_consolidator_perm_witness :
    (consolidate_rows
        [(("2").toList, ("1,5").toList), (("10").toList, ("2").toList)]).map Prod.fst =
      (consolidate_rows
        [(("10").toList, ("2").toList), (("2").toList, ("1,5").toList)]).map Prod.fst :=
  (c4_consolidator_perm
    [(("2").toList, ("1,5").toList), (("10").toList, ("2").toList)]
    [(("10").toList, ("2").toList), (("2").toList, ("1,5").toList)]
    (List.Perm.swap _ _ _)).2 (by decide)
